import Mathlib

/-!
Verification development for the chess960-board repository.

Part 1: the position generator (src/example/src/chess960-utils.ts).
TypeScript arrays of one-character piece strings are embedded as
`List (Option Char)` during construction (`none` models the empty string
placeholder) and as `List Char` for finished back ranks.  TypeScript array
indexing, which can yield `undefined`, is embedded as `List.get?`, so the
whole construction lives in the `Option` monad; the exported function
returns `Except` to model the thrown range error.
-/

/-- Indices of the still-empty slots, in ascending order.  Embeds
`pieces.map((p, i) => p === '' ? i : -1).filter(i => i >= 0)`. -/
def emptyIndices (pieces : List (Option Char)) : List Nat :=
  (List.range pieces.length).filter (fun i => pieces.get? i = some none)

/-- Embeds the body of `positionToBackRank` after the range guard, operating
on the 0-indexed position number `n` (the source's `n - 1`). -/
def buildBackRank (n : Nat) : Option (List Char) := do
  let pieces : List (Option Char) := List.replicate 8 none
  -- Step 1: Place bishops on opposite colored squares
  let lightSquares : List Nat := [1, 3, 5, 7]
  let ls ← lightSquares.get? (n % 4)
  let pieces := pieces.set ls (some 'B')
  let n := n / 4
  let darkSquares : List Nat := [0, 2, 4, 6]
  let ds ← darkSquares.get? (n % 4)
  let pieces := pieces.set ds (some 'B')
  let n := n / 4
  -- Step 2: Place queen
  let emptySquares := emptyIndices pieces
  let qs ← emptySquares.get? (n % 6)
  let pieces := pieces.set qs (some 'Q')
  let n := n / 6
  -- Step 3: Place knights
  let remainingSquares := emptyIndices pieces
  let knightPlacements : List (List Nat) :=
    [[0, 1], [0, 2], [0, 3], [0, 4],
     [1, 2], [1, 3], [1, 4],
     [2, 3], [2, 4],
     [3, 4]]
  let kp ← knightPlacements.get? n
  let k0 ← kp.get? 0
  let k1 ← kp.get? 1
  let n0 ← remainingSquares.get? k0
  let n1 ← remainingSquares.get? k1
  let pieces := pieces.set n0 (some 'N')
  let pieces := pieces.set n1 (some 'N')
  -- Step 4: Place rooks and king
  let lastSquares := emptyIndices pieces
  let r0 ← lastSquares.get? 0
  let ks ← lastSquares.get? 1
  let r1 ← lastSquares.get? 2
  let pieces := pieces.set r0 (some 'R')
  let pieces := pieces.set ks (some 'K')
  let pieces := pieces.set r1 (some 'R')
  -- the source returns the (now fully populated) array of piece letters
  pieces.mapM id

/-- Embeds `positionToBackRank(n)`: the range guard throws, everything else
is `buildBackRank` on `n - 1`. -/
def positionToBackRank (n : Int) : Except String (List Char) :=
  if n < 1 ∨ n > 960 then .error "Position must be between 1 and 960"
  else
    match buildBackRank (n - 1).toNat with
    | some l => .ok l
    | none => .error "undefined index"

/-- Spec-side predicate: the (unique) king's index lies strictly between the
two rooks' indices. -/
def kingBetweenRooksB (l : List Char) : Bool :=
  match (List.range l.length).filter (fun i => l.get? i = some 'R'),
        (List.range l.length).filter (fun i => l.get? i = some 'K') with
  | [r1, r2], [k] => decide (r1 < k) && decide (k < r2)
  | _, _ => false

/-- Spec-side predicate: the two bishops sit on opposite-colored squares
(one odd and one even 0-indexed file). -/
def bishopsOppositeB (l : List Char) : Bool :=
  match (List.range l.length).filter (fun i => l.get? i = some 'B') with
  | [b1, b2] => decide (b1 % 2 ≠ b2 % 2)
  | _ => false

/-- Combined decidable validity check used to brute-force all 960 indices. -/
def backRankCheck (o : Option (List Char)) : Bool :=
  match o with
  | none => false
  | some l =>
    (l.length == 8) && (l.count 'K' == 1) && (l.count 'Q' == 1) &&
    (l.count 'R' == 2) && (l.count 'N' == 2) && (l.count 'B' == 2) &&
    l.all (fun c => ['R', 'N', 'B', 'Q', 'K'].contains c) &&
    kingBetweenRooksB l && bishopsOppositeB l

set_option maxRecDepth 100000 in
theorem generator_ball : ∀ k, k < 960 → backRankCheck (buildBackRank k) = true := by
  decide

/-- Shared helper: on every in-range input the generator succeeds and the
resulting back rank passes the combined validity check. -/
theorem positionToBackRank_ok (n : Int) (h1 : 1 ≤ n) (h2 : n ≤ 960) :
    ∃ l, positionToBackRank n = .ok l ∧ backRankCheck (some l) = true := by
  have hk : (n - 1).toNat < 960 := by omega
  have hball := generator_ball _ hk
  have hng : ¬ (n < 1 ∨ n > 960) := by omega
  unfold positionToBackRank
  rw [if_neg hng]
  cases hb : buildBackRank (n - 1).toNat with
  | none => rw [hb] at hball; simp [backRankCheck] at hball
  | some l => exact ⟨l, rfl, hb ▸ hball⟩

/-- C1 (code bug evidence): evaluated on the failing input 518, the code
produces RNBBQKNR, while the next position number 519 produces the standard
back rank RNBQKBNR: the implementation maps input `n` to Scharnagl index
`n - 1`, shifting the standard array from 518 to 519. -/
theorem claim_C1_code_eval :
    positionToBackRank 518 = .ok ['R', 'N', 'B', 'B', 'Q', 'K', 'N', 'R'] ∧
    positionToBackRank 519 = .ok ['R', 'N', 'B', 'Q', 'K', 'B', 'N', 'R'] :=
  ⟨rfl, rfl⟩

/-- C2: for every n in [1,960], positionToBackRank n succeeds with a list of
exactly 8 piece letters holding 1 king, 1 queen, 2 rooks, 2 knights and 2
bishops, the king strictly between the rooks, and the bishops on
opposite-colored squares. -/
theorem claim_C2 (n : Int) (h1 : 1 ≤ n) (h2 : n ≤ 960) :
    ∃ l, positionToBackRank n = .ok l ∧ l.length = 8 ∧
      (∀ c ∈ l, c ∈ ['R', 'N', 'B', 'Q', 'K']) ∧
      l.count 'K' = 1 ∧ l.count 'Q' = 1 ∧ l.count 'R' = 2 ∧
      l.count 'N' = 2 ∧ l.count 'B' = 2 ∧
      kingBetweenRooksB l = true ∧ bishopsOppositeB l = true := by
  obtain ⟨l, hl, hch⟩ := positionToBackRank_ok n h1 h2
  simp only [backRankCheck, Bool.and_eq_true, beq_iff_eq, List.all_eq_true] at hch
  obtain ⟨⟨⟨⟨⟨⟨⟨⟨hlen, hK⟩, hQ⟩, hR⟩, hN⟩, hB⟩, hmem⟩, hkb⟩, hbo⟩ := hch
  refine ⟨l, hl, hlen, ?_, hK, hQ, hR, hN, hB, hkb, hbo⟩
  intro c hc
  simpa using hmem c hc

theorem claim_C2_witness :
    ∃ l, positionToBackRank 960 = .ok l ∧ l.length = 8 ∧
      (∀ c ∈ l, c ∈ ['R', 'N', 'B', 'Q', 'K']) ∧
      l.count 'K' = 1 ∧ l.count 'Q' = 1 ∧ l.count 'R' = 2 ∧
      l.count 'N' = 2 ∧ l.count 'B' = 2 ∧
      kingBetweenRooksB l = true ∧ bishopsOppositeB l = true :=
  claim_C2 960 (by norm_num) (by norm_num)

/-- C9: positionToBackRank raises the out-of-range error for every n outside
[1,960] and succeeds (raises no error) for every n in [1,960]. -/
theorem claim_C9 :
    (∀ n : Int, (n < 1 ∨ n > 960) →
      positionToBackRank n = .error "Position must be between 1 and 960") ∧
    (∀ n : Int, 1 ≤ n → n ≤ 960 → ∃ l, positionToBackRank n = .ok l) := by
  constructor
  · intro n h
    unfold positionToBackRank
    rw [if_pos h]
  · intro n h1 h2
    obtain ⟨l, hl, -⟩ := positionToBackRank_ok n h1 h2
    exact ⟨l, hl⟩

theorem claim_C9_witness :
    positionToBackRank 0 = .error "Position must be between 1 and 960" ∧
    positionToBackRank 961 = .error "Position must be between 1 and 960" ∧
    ∃ l, positionToBackRank 1 = .ok l :=
  ⟨claim_C9.1 0 (by norm_num), claim_C9.1 961 (by norm_num),
   claim_C9.2 1 (by norm_num) (by norm_num)⟩

/-!
Part 2: `backRankToFEN` (src/example/src/chess960-utils.ts, lines 81-90).
Strings are embedded as `List Char`; the TS function joins an array of
1-character piece strings, so the input is a `List Char` as well.  Note the
source's variable names are swapped relative to FEN conventions: the
lowercase rank (`whiteBackRank` in the source) is emitted first, i.e. at
FEN rank 8, which is the conventional black back rank.
-/

/-- Embeds `backRankToFEN(pieces)`. -/
def backRankToFEN (pieces : List Char) : List Char :=
  let backRank := pieces
  let whiteBackRank := backRank.map Char.toLower
  let blackBackRank := backRank.map Char.toUpper
  whiteBackRank ++ "/pppppppp/8/8/8/8/PPPPPPPP/".toList
    ++ blackBackRank ++ " w KQkq - 0 1".toList

/-- Generic separator split (the parsing step of the round-trip claim:
FEN fields are space-separated, board ranks are `/`-separated). -/
def splitOnChar (sep : Char) : List Char → List (List Char)
  | [] => [[]]
  | c :: cs =>
    if c = sep then [] :: splitOnChar sep cs
    else
      match splitOnChar sep cs with
      | [] => [[c]]
      | h :: t => (c :: h) :: t

theorem splitOnChar_no_sep (sep : Char) (xs : List Char) (h : sep ∉ xs) :
    splitOnChar sep xs = [xs] := by
  induction xs with
  | nil => rfl
  | cons c cs ih =>
    have hc : ¬ (c = sep) := fun e => h (by simp [e])
    have hcs : sep ∉ cs := fun hm => h (List.mem_cons_of_mem _ hm)
    simp [splitOnChar, hc, ih hcs]

theorem splitOnChar_append (sep : Char) (xs ys : List Char) (h : sep ∉ xs) :
    splitOnChar sep (xs ++ sep :: ys) = xs :: splitOnChar sep ys := by
  induction xs with
  | nil => simp [splitOnChar]
  | cons c cs ih =>
    have hc : ¬ (c = sep) := fun e => h (by simp [e])
    have hcs : sep ∉ cs := fun hm => h (List.mem_cons_of_mem _ hm)
    simp [splitOnChar, hc, ih hcs]

theorem split_fen_middle (upper : List Char) (h : '/' ∉ upper) :
    splitOnChar '/' ("pppppppp/8/8/8/8/PPPPPPPP/".toList ++ upper) =
      ["pppppppp".toList, ['8'], ['8'], ['8'], ['8'], "PPPPPPPP".toList, upper] := by
  have h1 : "pppppppp/8/8/8/8/PPPPPPPP/".toList ++ upper =
      "pppppppp".toList ++ '/' :: ("8/8/8/8/PPPPPPPP/".toList ++ upper) := rfl
  rw [h1, splitOnChar_append _ _ _ (by decide)]
  have h2 : "8/8/8/8/PPPPPPPP/".toList ++ upper =
      ['8'] ++ '/' :: ("8/8/8/PPPPPPPP/".toList ++ upper) := rfl
  rw [h2, splitOnChar_append _ _ _ (by decide)]
  have h3 : "8/8/8/PPPPPPPP/".toList ++ upper =
      ['8'] ++ '/' :: ("8/8/PPPPPPPP/".toList ++ upper) := rfl
  rw [h3, splitOnChar_append _ _ _ (by decide)]
  have h4 : "8/8/PPPPPPPP/".toList ++ upper =
      ['8'] ++ '/' :: ("8/PPPPPPPP/".toList ++ upper) := rfl
  rw [h4, splitOnChar_append _ _ _ (by decide)]
  have h5 : "8/PPPPPPPP/".toList ++ upper =
      ['8'] ++ '/' :: ("PPPPPPPP/".toList ++ upper) := rfl
  rw [h5, splitOnChar_append _ _ _ (by decide)]
  have h6 : "PPPPPPPP/".toList ++ upper = "PPPPPPPP".toList ++ '/' :: upper := rfl
  rw [h6, splitOnChar_append _ _ _ (by decide), splitOnChar_no_sep _ _ h]

/-- Mapping a function that fixes every member is the identity. -/
theorem map_id_of_mem {f : Char → Char} {l : List Char}
    (h : ∀ c ∈ l, f c = c) : l.map f = l := by
  induction l with
  | nil => rfl
  | cons c cs ih =>
    simp only [List.map_cons, h c (by simp)]
    rw [ih (fun d hd => h d (List.mem_cons_of_mem _ hd))]

/-- Per-letter facts about the five piece letters, used to discharge the
side conditions of the split lemmas. -/
theorem pieceLetter_facts :
    ∀ c ∈ (['R', 'N', 'B', 'Q', 'K'] : List Char),
      Char.toLower c ≠ ' ' ∧ Char.toLower c ≠ '/' ∧
      Char.toUpper c ≠ ' ' ∧ Char.toUpper c ≠ '/' ∧
      Char.toUpper c = c ∧ Char.toUpper (Char.toLower c) = c := by
  decide

/-- C7: the FEN built by `backRankToFEN` splits on spaces into a board field
followed by `w KQkq - 0 1`; the board field splits on `/` into the
lowercased input back rank, eight black pawns, four empty ranks, eight white
pawns, and the uppercased input back rank; the input is recovered from
either back rank (mirrored in case), and ranks 2 and 7 carry exactly 16
pawns in total. -/
theorem claim_C7 (pieces : List Char) (_h8 : pieces.length = 8)
    (hmem : ∀ c ∈ pieces, c ∈ (['R', 'N', 'B', 'Q', 'K'] : List Char)) :
    ∃ boardField,
      splitOnChar ' ' (backRankToFEN pieces) =
        [boardField, ['w'], "KQkq".toList, ['-'], ['0'], ['1']] ∧
      splitOnChar '/' boardField =
        [pieces.map Char.toLower, "pppppppp".toList, ['8'], ['8'], ['8'], ['8'],
         "PPPPPPPP".toList, pieces.map Char.toUpper] ∧
      pieces.map Char.toUpper = pieces ∧
      (pieces.map Char.toLower).map Char.toUpper = pieces ∧
      ((splitOnChar '/' boardField).getD 1 []).count 'p' +
        ((splitOnChar '/' boardField).getD 6 []).count 'P' = 16 := by
  have hlow : ∀ c ∈ pieces.map Char.toLower, c ≠ ' ' ∧ c ≠ '/' := by
    intro c hc
    obtain ⟨d, hd, rfl⟩ := List.mem_map.mp hc
    have hf := pieceLetter_facts d (hmem d hd)
    exact ⟨hf.1, hf.2.1⟩
  have hup : ∀ c ∈ pieces.map Char.toUpper, c ≠ ' ' ∧ c ≠ '/' := by
    intro c hc
    obtain ⟨d, hd, rfl⟩ := List.mem_map.mp hc
    have hf := pieceLetter_facts d (hmem d hd)
    exact ⟨hf.2.2.1, hf.2.2.2.1⟩
  have hupid : pieces.map Char.toUpper = pieces :=
    map_id_of_mem (fun c hc => (pieceLetter_facts c (hmem c hc)).2.2.2.2.1)
  have hlowup : (pieces.map Char.toLower).map Char.toUpper = pieces := by
    rw [List.map_map]
    exact map_id_of_mem (fun c hc => (pieceLetter_facts c (hmem c hc)).2.2.2.2.2)
  have hspace : ' ' ∉ pieces.map Char.toLower ++ "/pppppppp/8/8/8/8/PPPPPPPP/".toList
      ++ pieces.map Char.toUpper := by
    intro hm
    rcases List.mem_append.mp hm with hm' | hm'
    · rcases List.mem_append.mp hm' with hm'' | hm''
      · exact (hlow _ hm'').1 rfl
      · revert hm''; decide
    · exact (hup _ hm').1 rfl
  have hfen : splitOnChar ' ' (backRankToFEN pieces) =
      (pieces.map Char.toLower ++ "/pppppppp/8/8/8/8/PPPPPPPP/".toList
        ++ pieces.map Char.toUpper) :: splitOnChar ' ' "w KQkq - 0 1".toList := by
    have he : backRankToFEN pieces =
        (pieces.map Char.toLower ++ "/pppppppp/8/8/8/8/PPPPPPPP/".toList
          ++ pieces.map Char.toUpper) ++ ' ' :: "w KQkq - 0 1".toList := by
      simp [backRankToFEN, List.append_assoc]
    rw [he, splitOnChar_append _ _ _ hspace]
  have htail : splitOnChar ' ' "w KQkq - 0 1".toList =
      [['w'], "KQkq".toList, ['-'], ['0'], ['1']] := by decide
  have hboard : splitOnChar '/' (pieces.map Char.toLower
      ++ "/pppppppp/8/8/8/8/PPPPPPPP/".toList ++ pieces.map Char.toUpper) =
      [pieces.map Char.toLower, "pppppppp".toList, ['8'], ['8'], ['8'], ['8'],
       "PPPPPPPP".toList, pieces.map Char.toUpper] := by
    have he : pieces.map Char.toLower ++ "/pppppppp/8/8/8/8/PPPPPPPP/".toList
        ++ pieces.map Char.toUpper =
        pieces.map Char.toLower ++ '/' :: ("pppppppp/8/8/8/8/PPPPPPPP/".toList
          ++ pieces.map Char.toUpper) := by
      simp [List.append_assoc]
    rw [he, splitOnChar_append _ _ _ (fun hm => (hlow _ hm).2 rfl),
        split_fen_middle _ (fun hm => (hup _ hm).2 rfl)]
  refine ⟨_, by rw [hfen, htail], hboard, hupid, hlowup, by rw [hboard]; rfl⟩

theorem claim_C7_witness :
    ∃ boardField,
      splitOnChar ' ' (backRankToFEN "RNBQKBNR".toList) =
        [boardField, ['w'], "KQkq".toList, ['-'], ['0'], ['1']] ∧
      splitOnChar '/' boardField =
        ["RNBQKBNR".toList.map Char.toLower, "pppppppp".toList, ['8'], ['8'],
         ['8'], ['8'], "PPPPPPPP".toList, "RNBQKBNR".toList.map Char.toUpper] ∧
      "RNBQKBNR".toList.map Char.toUpper = "RNBQKBNR".toList ∧
      ("RNBQKBNR".toList.map Char.toLower).map Char.toUpper = "RNBQKBNR".toList ∧
      ((splitOnChar '/' boardField).getD 1 []).count 'p' +
        ((splitOnChar '/' boardField).getD 6 []).count 'P' = 16 :=
  claim_C7 "RNBQKBNR".toList (by decide) (by decide)

/-!
Part 3: the board interaction engine (src/src/Chess960Board.tsx, reached via
src/src/index.ts; the file body is in the repository sources).  Squares are
the two-character strings produced by `rankFileToSquare`; the 8x8 grid is a
list of rank rows (row 0 = rank 8), `none` marking empty squares, exactly as
the component's `Piece[][]` with `null` holes.  JS `Map` objects keyed by
strings are embedded as insertion-ordered association lists with
replace-or-append `set`.
-/

inductive PColor where
  | white
  | black
deriving DecidableEq, Repr

inductive PType where
  | p
  | r
  | n
  | b
  | q
  | k
deriving DecidableEq, Repr

structure Piece where
  type : PType
  color : PColor
deriving DecidableEq, Repr

abbrev Board := List (List (Option Piece))

/-- Embeds `board[rank]?.[file]` (optional chaining yields `undefined`,
here `none`, when out of range). -/
def getSq (b : Board) (rank file : Nat) : Option Piece :=
  (b.getD rank []).getD file none

/-- Embeds `rankFileToSquare`: `files = 'abcdefgh'`, `ranks = '87654321'`. -/
def rankFileToSquare (rank file : Nat) : String :=
  String.mk ["abcdefgh".toList.getD file '?', "87654321".toList.getD rank '?']

def colorName : PColor → String
  | .white => "white"
  | .black => "black"

def typeName : PType → String
  | .p => "p"
  | .r => "r"
  | .n => "n"
  | .b => "b"
  | .q => "q"
  | .k => "k"

structure AnimEntry where
  fromSq : String
  toSq : String
  piece : Piece
deriving DecidableEq, Repr

structure CapEntry where
  square : String
  piece : Piece
deriving DecidableEq, Repr

/-- JS `Map.set`: replace in place when the key exists, append otherwise. -/
def mapSet {β : Type} (m : List (String × β)) (k : String) (v : β) :
    List (String × β) :=
  if m.any (fun e => e.1 = k) then m.map (fun e => if e.1 = k then (k, v) else e)
  else m ++ [(k, v)]

/-- The 64 (rank, file) pairs in the nested-loop scan order of the source:
ascending rank, then ascending file. -/
def allRC : List (Nat × Nat) := (List.range 64).map (fun i => (i / 8, i % 8))

/-- The animation key template `newSquare-color-type`. -/
def animKey (sq : String) (p : Piece) : String :=
  sq ++ "-" ++ colorName p.color ++ "-" ++ typeName p.type

/-- The inner double loop of `detectAndAnimateMoves`: first square (in scan
order) holding a piece of the same color and type at a different square. -/
def findMoveTarget (newBoard : Board) (square : String) (p : Piece) :
    Option String :=
  (allRC.find? (fun rc =>
    match getSq newBoard rc.1 rc.2 with
    | some q =>
      decide (q.color = p.color) && decide (q.type = p.type) &&
        decide (rankFileToSquare rc.1 rc.2 ≠ square)
    | none => false)).map (fun rc => rankFileToSquare rc.1 rc.2)

/-- One iteration of the outer scan of `detectAndAnimateMoves`.  The source
guard `oldPiece && (!newPiece || color or type differ)` is exactly
`getSq newBoard _ _ ≠ some oldPiece` for an occupied old square. -/
def detectStep (oldBoard newBoard : Board)
    (acc : List (String × AnimEntry) × List (String × CapEntry))
    (rc : Nat × Nat) :
    List (String × AnimEntry) × List (String × CapEntry) :=
  match getSq oldBoard rc.1 rc.2 with
  | none => acc
  | some op =>
    if getSq newBoard rc.1 rc.2 = some op then acc
    else
      match findMoveTarget newBoard (rankFileToSquare rc.1 rc.2) op with
      | some newSquare =>
        (mapSet acc.1 (animKey newSquare op)
          ⟨rankFileToSquare rc.1 rc.2, newSquare, op⟩, acc.2)
      | none =>
        (acc.1, mapSet acc.2 (rankFileToSquare rc.1 rc.2)
          ⟨rankFileToSquare rc.1 rc.2, op⟩)

/-- Embeds `detectAndAnimateMoves(oldBoard, newBoard)`; returns the
`animatingPieces` and `capturedPieces` maps (the timer that later clears
them is a side effect outside the diff itself). -/
def detectAndAnimateMoves (oldBoard newBoard : Board) :
    List (String × AnimEntry) × List (String × CapEntry) :=
  allRC.foldl (detectStep oldBoard newBoard) ([], [])

/-- Number of entries of a keyed association list carrying a given key. -/
def countKey {β : Type} (m : List (String × β)) (k : String) : Nat :=
  (m.filter (fun e => e.1 = k)).length

theorem foldl_inert {α σ : Type} (step : σ → α → σ) (l : List α) (s : σ)
    (h : ∀ t x, x ∈ l → step t x = t) : l.foldl step s = s := by
  induction l generalizing s with
  | nil => rfl
  | cons a t ih =>
    rw [List.foldl_cons, h s a (by simp)]
    exact ih s (fun u x hx => h u x (List.mem_cons_of_mem _ hx))

theorem foldl_inv {α σ : Type} (step : σ → α → σ) (Inv : σ → Prop) (l : List α)
    (h : ∀ t x, x ∈ l → Inv t → Inv (step t x)) :
    ∀ s, Inv s → Inv (l.foldl step s) := by
  induction l with
  | nil => intro s hs; exact hs
  | cons a t ih =>
    intro s hs
    rw [List.foldl_cons]
    exact ih (fun u x hx hu => h u x (List.mem_cons_of_mem _ hx) hu)
      (step s a) (h s a (by simp) hs)

theorem countKey_map_replace {β : Type} (m : List (String × β))
    (k k' : String) (v : β) (h : k ≠ k') :
    countKey (m.map (fun e => if e.1 = k then (k, v) else e)) k' =
      countKey m k' := by
  induction m with
  | nil => rfl
  | cons e t ih =>
    simp only [List.map_cons]
    by_cases he : e.1 = k
    · have h2 : ¬ (e.1 = k') := by rw [he]; exact h
      rw [if_pos he]
      simp only [countKey, List.filter_cons]
      have hkk : (decide ((k, v).1 = k')) = false := by simp [h]
      have hee : (decide (e.1 = k')) = false := by simp [h2]
      rw [hkk, hee]
      exact ih
    · rw [if_neg he]
      by_cases hp : e.1 = k'
      · simp only [countKey, List.filter_cons]
        have hd : (decide (e.1 = k')) = true := by simp [hp]
        rw [hd]
        simp only [List.length_cons]
        exact congrArg Nat.succ ih
      · simp only [countKey, List.filter_cons]
        have hd : (decide (e.1 = k')) = false := by simp [hp]
        rw [hd]
        exact ih

theorem countKey_mapSet_ne {β : Type} (m : List (String × β)) (k : String)
    (v : β) (k' : String) (h : k ≠ k') :
    countKey (mapSet m k v) k' = countKey m k' := by
  unfold mapSet
  by_cases ha : m.any (fun e => e.1 = k) = true
  · rw [if_pos ha]
    exact countKey_map_replace m k k' v h
  · rw [if_neg ha]
    simp only [countKey, List.filter_append]
    have : (([(k, v)] : List (String × β)).filter (fun e => e.1 = k')) = [] := by
      simp [h]
    rw [this, List.append_nil]

theorem countKey_mapSet_self_of_zero {β : Type} (m : List (String × β))
    (k : String) (v : β) (h : countKey m k = 0) :
    countKey (mapSet m k v) k = 1 ∧ (k, v) ∈ mapSet m k v := by
  have hf : m.filter (fun e => e.1 = k) = [] :=
    List.length_eq_zero.mp h
  have ha : m.any (fun e => e.1 = k) = false := by
    rw [List.any_eq_false]
    intro e he hek
    have : e ∈ m.filter (fun e => e.1 = k) := List.mem_filter.mpr ⟨he, hek⟩
    rw [hf] at this
    cases this
  unfold mapSet
  rw [if_neg (by simp [ha])]
  refine ⟨?_, by simp⟩
  simp [countKey, List.filter_append, hf]

theorem mem_mapSet {β : Type} {m : List (String × β)} {k : String} {v : β}
    {e : String × β} (he : e ∈ mapSet m k v) : e ∈ m ∨ e = (k, v) := by
  unfold mapSet at he
  by_cases ha : m.any (fun x => x.1 = k) = true
  · rw [if_pos ha] at he
    obtain ⟨e', he', hee⟩ := List.mem_map.mp he
    by_cases hk : e'.1 = k
    · right; rw [if_pos hk] at hee; exact hee.symm
    · left; rw [if_neg hk] at hee; exact hee ▸ he'
  · rw [if_neg ha] at he
    rcases List.mem_append.mp he with h1 | h1
    · exact Or.inl h1
    · exact Or.inr (by simpa using h1)

theorem mem_mapSet_of_ne {β : Type} {m : List (String × β)} {k : String}
    {v : β} {e : String × β} (he : e ∈ m) (hne : e.1 ≠ k) :
    e ∈ mapSet m k v := by
  unfold mapSet
  by_cases ha : m.any (fun x => x.1 = k) = true
  · rw [if_pos ha]
    have hrepl : (if e.1 = k then (k, v) else e) = e := if_neg hne
    exact hrepl ▸ List.mem_map_of_mem _ he
  · rw [if_neg ha]
    exact List.mem_append_left _ he

theorem rankFileToSquare_inj :
    ∀ r f r' f' : Fin 8,
      rankFileToSquare r f = rankFileToSquare r' f' →
        (r : Nat) = r' ∧ (f : Nat) = f' := by
  decide

theorem allRC_mem_bounds : ∀ rc ∈ allRC, rc.1 < 8 ∧ rc.2 < 8 := by decide

theorem allRC_nodup : allRC.Nodup := by decide

theorem allRC_sorted :
    allRC.Pairwise (fun a b => a.1 * 8 + a.2 < b.1 * 8 + b.2) := by decide

theorem mem_allRC (r f : Nat) (hr : r < 8) (hf : f < 8) : (r, f) ∈ allRC := by
  refine List.mem_map.mpr ⟨r * 8 + f, List.mem_range.mpr (by omega), ?_⟩
  have h1 : (r * 8 + f) / 8 = r := by omega
  have h2 : (r * 8 + f) % 8 = f := by omega
  rw [h1, h2]

theorem find?_of_first {α : Type} (l : List α) (pred : α → Bool) (x : α)
    (rank : α → Nat) (hx : x ∈ l) (hpx : pred x = true)
    (hmin : ∀ y ∈ l, pred y = true → rank x ≤ rank y)
    (hsort : l.Pairwise (fun a b => rank a < rank b)) :
    l.find? pred = some x := by
  induction l with
  | nil => cases hx
  | cons a t ih =>
    have hsort' := (List.pairwise_cons.mp hsort)
    cases hpa : pred a with
    | false =>
      have hxt : x ∈ t := by
        rcases List.mem_cons.mp hx with h | h
        · rw [h] at hpx; rw [hpx] at hpa; cases hpa
        · exact h
      rw [List.find?_cons_of_neg _ (by simp [hpa])]
      exact ih hxt (fun y hy hpy => hmin y (List.mem_cons_of_mem _ hy) hpy)
        hsort'.2
    | true =>
      rw [List.find?_cons_of_pos _ hpa]
      rcases List.mem_cons.mp hx with h | h
      · rw [h]
      · have h1 := hsort'.1 x h
        have h2 := hmin a (by simp) hpa
        omega

/-- Bridge from `Fin 8` quantification (decidable by enumeration) to the
bounded `Nat` quantification used in the theorems. -/
theorem ball8_of_fin {P : Nat → Nat → Prop} (h : ∀ r f : Fin 8, P r.1 f.1) :
    ∀ r f : Nat, r < 8 → f < 8 → P r f := fun r f hr hf => h ⟨r, hr⟩ ⟨f, hf⟩

/-- C4: if the occupant of square A disappears and no piece of the same
color and type occupies any other square of the new board, the diff records
exactly one capture entry keyed at A (with A's old occupant as its payload)
and no move animation whose source is A. -/
theorem claim_C4 (oldB newB : Board) (ra fa : Nat) (p : Piece)
    (hra : ra < 8) (hfa : fa < 8)
    (hold : getSq oldB ra fa = some p)
    (hnew : getSq newB ra fa = none)
    (hno : ∀ r f, r < 8 → f < 8 → (r, f) ≠ (ra, fa) → getSq newB r f ≠ some p) :
    countKey (detectAndAnimateMoves oldB newB).2 (rankFileToSquare ra fa) = 1 ∧
    (rankFileToSquare ra fa, (⟨rankFileToSquare ra fa, p⟩ : CapEntry)) ∈
      (detectAndAnimateMoves oldB newB).2 ∧
    ∀ e ∈ (detectAndAnimateMoves oldB newB).1,
      (e.2).fromSq ≠ rankFileToSquare ra fa := by
  have hsq_ne : ∀ rc : Nat × Nat, rc ∈ allRC → rc ≠ (ra, fa) →
      rankFileToSquare rc.1 rc.2 ≠ rankFileToSquare ra fa := by
    intro rc hrc hne heq
    obtain ⟨h1, h2⟩ := allRC_mem_bounds rc hrc
    have hinj := rankFileToSquare_inj ⟨rc.1, h1⟩ ⟨rc.2, h2⟩ ⟨ra, hra⟩ ⟨fa, hfa⟩ heq
    exact hne (Prod.ext hinj.1 hinj.2)
  -- behavior of one scan step away from A
  have hgen : ∀ acc rc, rc ∈ allRC → rc ≠ (ra, fa) →
      countKey (detectStep oldB newB acc rc).2 (rankFileToSquare ra fa) =
        countKey acc.2 (rankFileToSquare ra fa) ∧
      (∀ x : CapEntry, (rankFileToSquare ra fa, x) ∈ acc.2 →
        (rankFileToSquare ra fa, x) ∈ (detectStep oldB newB acc rc).2) ∧
      (∀ e ∈ (detectStep oldB newB acc rc).1,
        e ∈ acc.1 ∨ (e.2).fromSq = rankFileToSquare rc.1 rc.2) := by
    intro acc rc hrc hne
    have hsq := hsq_ne rc hrc hne
    cases ho : getSq oldB rc.1 rc.2 with
    | none =>
      have hstep : detectStep oldB newB acc rc = acc := by
        simp [detectStep, ho]
      rw [hstep]
      exact ⟨rfl, fun x hx => hx, fun e he => Or.inl he⟩
    | some op =>
      by_cases hn : getSq newB rc.1 rc.2 = some op
      · have hstep : detectStep oldB newB acc rc = acc := by
          simp [detectStep, ho, hn]
        rw [hstep]
        exact ⟨rfl, fun x hx => hx, fun e he => Or.inl he⟩
      · cases hf : findMoveTarget newB (rankFileToSquare rc.1 rc.2) op with
        | some ns =>
          have hstep : detectStep oldB newB acc rc =
              (mapSet acc.1 (animKey ns op)
                ⟨rankFileToSquare rc.1 rc.2, ns, op⟩, acc.2) := by
            simp [detectStep, ho, hn, hf]
          rw [hstep]
          refine ⟨rfl, fun x hx => hx, fun e he => ?_⟩
          rcases mem_mapSet he with h1 | h1
          · exact Or.inl h1
          · right; rw [h1]
        | none =>
          have hstep : detectStep oldB newB acc rc =
              (acc.1, mapSet acc.2 (rankFileToSquare rc.1 rc.2)
                ⟨rankFileToSquare rc.1 rc.2, op⟩) := by
            simp [detectStep, ho, hn, hf]
          rw [hstep]
          refine ⟨countKey_mapSet_ne _ _ _ _ hsq, fun x hx => ?_,
            fun e he => Or.inl he⟩
          exact mem_mapSet_of_ne hx (Ne.symm hsq)
  -- the step at A itself records the capture
  have hstepA : ∀ acc, countKey acc.2 (rankFileToSquare ra fa) = 0 →
      detectStep oldB newB acc (ra, fa) =
        (acc.1, mapSet acc.2 (rankFileToSquare ra fa)
          ⟨rankFileToSquare ra fa, p⟩) := by
    intro acc hz
    have hfind : findMoveTarget newB (rankFileToSquare ra fa) p = none := by
      unfold findMoveTarget
      rw [List.find?_eq_none.mpr ?_]
      · rfl
      · intro rc hrc
        obtain ⟨h1, h2⟩ := allRC_mem_bounds rc hrc
        by_cases heq : rc = (ra, fa)
        · subst heq
          simp [hnew]
        · have hne := hno rc.1 rc.2 h1 h2 (fun hh => heq (by
            have : rc = (rc.1, rc.2) := rfl
            rw [this, hh]))
          cases hq : getSq newB rc.1 rc.2 with
          | none => simp
          | some q =>
            simp only [Bool.and_eq_true, decide_eq_true_eq]
            rintro ⟨⟨hc, ht⟩, -⟩
            apply hne
            rw [hq]
            have hqp : q = p := by
              cases q; cases p
              simp_all
            rw [hqp]
    simp [detectStep, hold, hnew, hfind]
  -- decompose the scan at A
  obtain ⟨l1, l2, hsplit⟩ := List.append_of_mem (mem_allRC ra fa hra hfa)
  have hnd := allRC_nodup
  rw [hsplit] at hnd
  have hd := List.nodup_append.mp hnd
  have hA1 : (ra, fa) ∉ l1 := fun h => hd.2.2 h (by simp)
  have hA2 : (ra, fa) ∉ l2 := (List.nodup_cons.mp hd.2.1).1
  have hmem1 : ∀ x ∈ l1, x ∈ allRC := fun x hx =>
    hsplit ▸ List.mem_append_left _ hx
  have hmem2 : ∀ x ∈ l2, x ∈ allRC := fun x hx =>
    hsplit ▸ List.mem_append_right _ (List.mem_cons_of_mem _ hx)
  have hInv0 : ∀ t x, x ∈ l1 →
      (countKey t.2 (rankFileToSquare ra fa) = 0 ∧
        ∀ e ∈ t.1, (e.2).fromSq ≠ rankFileToSquare ra fa) →
      (countKey (detectStep oldB newB t x).2 (rankFileToSquare ra fa) = 0 ∧
        ∀ e ∈ (detectStep oldB newB t x).1,
          (e.2).fromSq ≠ rankFileToSquare ra fa) := by
    intro t x hx hInv
    have hx' : x ≠ (ra, fa) := fun h => hA1 (h ▸ hx)
    obtain ⟨hc, hm, ha⟩ := hgen t x (hmem1 x hx) hx'
    refine ⟨hc.trans hInv.1, fun e he => ?_⟩
    rcases ha e he with h1 | h1
    · exact hInv.2 e h1
    · rw [h1]; exact hsq_ne x (hmem1 x hx) hx'
  have hphase1 := foldl_inv (detectStep oldB newB)
    (fun t => countKey t.2 (rankFileToSquare ra fa) = 0 ∧
      ∀ e ∈ t.1, (e.2).fromSq ≠ rankFileToSquare ra fa)
    l1 hInv0 ([], []) ⟨rfl, by simp⟩
  have hInv1 : ∀ t x, x ∈ l2 →
      (countKey t.2 (rankFileToSquare ra fa) = 1 ∧
        (rankFileToSquare ra fa, (⟨rankFileToSquare ra fa, p⟩ : CapEntry)) ∈ t.2 ∧
        ∀ e ∈ t.1, (e.2).fromSq ≠ rankFileToSquare ra fa) →
      (countKey (detectStep oldB newB t x).2 (rankFileToSquare ra fa) = 1 ∧
        (rankFileToSquare ra fa, (⟨rankFileToSquare ra fa, p⟩ : CapEntry)) ∈
          (detectStep oldB newB t x).2 ∧
        ∀ e ∈ (detectStep oldB newB t x).1,
          (e.2).fromSq ≠ rankFileToSquare ra fa) := by
    intro t x hx hInv
    have hx' : x ≠ (ra, fa) := fun h => hA2 (h ▸ hx)
    obtain ⟨hc, hm, ha⟩ := hgen t x (hmem2 x hx) hx'
    refine ⟨hc.trans hInv.1, hm _ hInv.2.1, fun e he => ?_⟩
    rcases ha e he with h1 | h1
    · exact hInv.2.2 e h1
    · rw [h1]; exact hsq_ne x (hmem2 x hx) hx'
  have hmid := hstepA (l1.foldl (detectStep oldB newB) ([], [])) hphase1.1
  have hmid1 : countKey (detectStep oldB newB
      (l1.foldl (detectStep oldB newB) ([], [])) (ra, fa)).2
      (rankFileToSquare ra fa) = 1 ∧
      (rankFileToSquare ra fa, (⟨rankFileToSquare ra fa, p⟩ : CapEntry)) ∈
        (detectStep oldB newB
          (l1.foldl (detectStep oldB newB) ([], [])) (ra, fa)).2 ∧
      ∀ e ∈ (detectStep oldB newB
          (l1.foldl (detectStep oldB newB) ([], [])) (ra, fa)).1,
        (e.2).fromSq ≠ rankFileToSquare ra fa := by
    rw [hmid]
    obtain ⟨h1, h2⟩ := countKey_mapSet_self_of_zero _ _
      (⟨rankFileToSquare ra fa, p⟩ : CapEntry) hphase1.1
    exact ⟨h1, h2, hphase1.2⟩
  have hfinal := foldl_inv (detectStep oldB newB)
    (fun t => countKey t.2 (rankFileToSquare ra fa) = 1 ∧
      (rankFileToSquare ra fa, (⟨rankFileToSquare ra fa, p⟩ : CapEntry)) ∈ t.2 ∧
      ∀ e ∈ t.1, (e.2).fromSq ≠ rankFileToSquare ra fa)
    l2 hInv1 _ hmid1
  have hda : detectAndAnimateMoves oldB newB =
      l2.foldl (detectStep oldB newB)
        (detectStep oldB newB (l1.foldl (detectStep oldB newB) ([], []))
          (ra, fa)) := by
    unfold detectAndAnimateMoves
    rw [hsplit, List.foldl_append, List.foldl_cons]
  rw [hda]
  exact hfinal

def wQueen : Piece := ⟨.q, .white⟩

def wKnightPc : Piece := ⟨.n, .white⟩

def emptyRow8 : List (Option Piece) := List.replicate 8 none

def c4OldBoard : Board :=
  [emptyRow8, emptyRow8, emptyRow8,
   [none, none, none, some wQueen, none, none, none, none],
   emptyRow8, emptyRow8, emptyRow8, emptyRow8]

def c4NewBoard : Board := List.replicate 8 emptyRow8

theorem claim_C4_witness :
    countKey (detectAndAnimateMoves c4OldBoard c4NewBoard).2
      (rankFileToSquare 3 3) = 1 ∧
    (rankFileToSquare 3 3, (⟨rankFileToSquare 3 3, wQueen⟩ : CapEntry)) ∈
      (detectAndAnimateMoves c4OldBoard c4NewBoard).2 ∧
    ∀ e ∈ (detectAndAnimateMoves c4OldBoard c4NewBoard).1,
      (e.2).fromSq ≠ rankFileToSquare 3 3 :=
  claim_C4 c4OldBoard c4NewBoard 3 3 wQueen (by decide) (by decide)
    (by decide) (by decide) (ball8_of_fin (by decide))

/-- Boards for the C5 counterexample: the a8 knight moves to a7, while a
second white knight sits unmoved on f8. -/
def c5OldBoard : Board :=
  [[some wKnightPc, none, none, none, none, some wKnightPc, none, none],
   emptyRow8, emptyRow8, emptyRow8, emptyRow8, emptyRow8, emptyRow8, emptyRow8]

def c5NewBoard : Board :=
  [[none, none, none, none, none, some wKnightPc, none, none],
   [some wKnightPc, none, none, none, none, none, none, none],
   emptyRow8, emptyRow8, emptyRow8, emptyRow8, emptyRow8, emptyRow8]

/-- C5 counterexample: `c5OldBoard`/`c5NewBoard` differ only by one piece
having moved from a8 to a7 (a7 empty in the old board), yet the diff does
not produce the move animation keyed at the destination a7 that the claim
demands: the scan matches the unmoved twin knight on f8 first and keys the
animation there. -/
theorem claim_C5_counterexample :
    detectAndAnimateMoves c5OldBoard c5NewBoard =
      ([(animKey "f8" wKnightPc, ⟨"a8", "f8", wKnightPc⟩)], []) ∧
    detectAndAnimateMoves c5OldBoard c5NewBoard ≠
      ([(animKey "a7" wKnightPc, ⟨"a8", "a7", wKnightPc⟩)], []) ∧
    ∀ e ∈ (detectAndAnimateMoves c5OldBoard c5NewBoard).1,
      (e.2).toSq ≠ "a7" := by
  decide

/-- C5 (amended): if additionally B is the first square in scan order
(ascending rank, then ascending file) holding a piece of the moved piece's
color and type in the new board, the diff is exactly one move animation
keyed at the destination B with source A, and no capture entries. -/
theorem claim_C5 (oldB newB : Board) (ra fa rb fb : Nat) (p : Piece)
    (hra : ra < 8) (hfa : fa < 8) (hrb : rb < 8) (hfb : fb < 8)
    (holdA : getSq oldB ra fa = some p)
    (holdB : getSq oldB rb fb = none)
    (hnewA : getSq newB ra fa = none)
    (hnewB : getSq newB rb fb = some p)
    (hrest : ∀ r f, r < 8 → f < 8 → (r, f) ≠ (ra, fa) → (r, f) ≠ (rb, fb) →
      getSq oldB r f = getSq newB r f)
    (hfirst : ∀ r f, r < 8 → f < 8 → r * 8 + f < rb * 8 + fb →
      getSq newB r f ≠ some p) :
    detectAndAnimateMoves oldB newB =
      ([(animKey (rankFileToSquare rb fb) p,
          ⟨rankFileToSquare ra fa, rankFileToSquare rb fb, p⟩)], []) := by
  have hAB : (ra, fa) ≠ (rb, fb) := by
    intro h
    have h1 : ra = rb := congrArg Prod.fst h
    have h2 : fa = fb := congrArg Prod.snd h
    rw [h1, h2, holdB] at holdA
    cases holdA
  have hinert : ∀ acc rc, rc ∈ allRC → rc ≠ (ra, fa) →
      detectStep oldB newB acc rc = acc := by
    intro acc rc hrc hne
    obtain ⟨h1, h2⟩ := allRC_mem_bounds rc hrc
    by_cases hB : rc = (rb, fb)
    · subst hB
      simp [detectStep, holdB]
    · have hne1 : (rc.1, rc.2) ≠ (ra, fa) := fun hh => hne hh
      have hne2 : (rc.1, rc.2) ≠ (rb, fb) := fun hh => hB hh
      have heq := hrest rc.1 rc.2 h1 h2 hne1 hne2
      cases ho : getSq oldB rc.1 rc.2 with
      | none => simp [detectStep, ho]
      | some q =>
        have hn : getSq newB rc.1 rc.2 = some q := by rw [← heq, ho]
        simp [detectStep, ho, hn]
  have hsqBA : rankFileToSquare rb fb ≠ rankFileToSquare ra fa := by
    intro heq
    have hinj := rankFileToSquare_inj ⟨rb, hrb⟩ ⟨fb, hfb⟩ ⟨ra, hra⟩ ⟨fa, hfa⟩ heq
    have e1 : rb = ra := hinj.1
    have e2 : fb = fa := hinj.2
    exact hAB (by rw [e1, e2])
  have hfq : allRC.find? (fun rc =>
      match getSq newB rc.1 rc.2 with
      | some q =>
        decide (q.color = p.color) && decide (q.type = p.type) &&
          decide (rankFileToSquare rc.1 rc.2 ≠ rankFileToSquare ra fa)
      | none => false) = some (rb, fb) := by
    apply find?_of_first allRC _ (rb, fb) (fun rc => rc.1 * 8 + rc.2)
      (mem_allRC rb fb hrb hfb)
    · simp [hnewB, hsqBA]
    · intro y hy hpy
      obtain ⟨h1, h2⟩ := allRC_mem_bounds y hy
      by_contra hge
      have hlt : y.1 * 8 + y.2 < rb * 8 + fb := by omega
      have hnp := hfirst y.1 y.2 h1 h2 hlt
      revert hpy
      cases hq : getSq newB y.1 y.2 with
      | none => simp
      | some q =>
        simp only [Bool.and_eq_true, decide_eq_true_eq]
        rintro ⟨⟨hc, ht⟩, -⟩
        apply hnp
        rw [hq]
        have hqp : q = p := by
          cases q; cases p
          simp_all
        rw [hqp]
    · exact allRC_sorted
  have hfind : findMoveTarget newB (rankFileToSquare ra fa) p =
      some (rankFileToSquare rb fb) := by
    unfold findMoveTarget
    rw [hfq]
    rfl
  have hstepA : detectStep oldB newB ([], []) (ra, fa) =
      ([(animKey (rankFileToSquare rb fb) p,
          ⟨rankFileToSquare ra fa, rankFileToSquare rb fb, p⟩)], []) := by
    simp [detectStep, holdA, hnewA, hfind, mapSet]
  obtain ⟨l1, l2, hsplit⟩ := List.append_of_mem (mem_allRC ra fa hra hfa)
  have hnd := allRC_nodup
  rw [hsplit] at hnd
  have hd := List.nodup_append.mp hnd
  have hA1 : (ra, fa) ∉ l1 := fun h => hd.2.2 h (by simp)
  have hA2 : (ra, fa) ∉ l2 := (List.nodup_cons.mp hd.2.1).1
  unfold detectAndAnimateMoves
  rw [hsplit, List.foldl_append, List.foldl_cons]
  rw [foldl_inert _ l1 _ (fun t x hx => hinert t x
    (hsplit ▸ List.mem_append_left _ hx) (fun h => hA1 (h ▸ hx)))]
  rw [hstepA]
  exact foldl_inert _ l2 _ (fun t x hx => hinert t x
    (hsplit ▸ List.mem_append_right _ (List.mem_cons_of_mem _ hx))
    (fun h => hA2 (h ▸ hx)))

def c5WitOldBoard : Board :=
  [[some wKnightPc, none, none, none, none, none, none, none],
   emptyRow8, emptyRow8, emptyRow8, emptyRow8, emptyRow8, emptyRow8, emptyRow8]

def c5WitNewBoard : Board :=
  [emptyRow8,
   [some wKnightPc, none, none, none, none, none, none, none],
   emptyRow8, emptyRow8, emptyRow8, emptyRow8, emptyRow8, emptyRow8]

theorem claim_C5_witness :
    detectAndAnimateMoves c5WitOldBoard c5WitNewBoard =
      ([(animKey (rankFileToSquare 1 0) wKnightPc,
          ⟨rankFileToSquare 0 0, rankFileToSquare 1 0, wKnightPc⟩)], []) :=
  claim_C5 c5WitOldBoard c5WitNewBoard 0 0 1 0 wKnightPc (by decide) (by decide)
    (by decide) (by decide) (by decide) (by decide) (by decide) (by decide)
    (ball8_of_fin (by decide)) (ball8_of_fin (by decide))

/-!
Part 4: the component's stateful handlers.  The external rules engine
(chess.js) is a collaborator outside this repository: its `get`/`moves`
queries are oracles carried in `Props`, and its FEN loading is modelled from
the spec as the `fenToBoard` parser below.  React `useState` fields become
`CState`; props and engine oracles become `Props`; each handler maps a state
to a new state plus the list of `onMove` calls it emits (side effects such
as sounds, logging and the animation-clearing timer carry no move intent and
are noted in comments where they occur in the source).
-/

/-- Modelled from the spec: FEN piece letters as parsed by the external
chess.js collaborator (uppercase white, lowercase black). -/
def pieceOfFenChar (c : Char) : Option Piece :=
  let t : Option PType :=
    if c.toLower = 'p' then some .p
    else if c.toLower = 'r' then some .r
    else if c.toLower = 'n' then some .n
    else if c.toLower = 'b' then some .b
    else if c.toLower = 'q' then some .q
    else if c.toLower = 'k' then some .k
    else none
  t.map (fun t => ⟨t, if c.isUpper then .white else .black⟩)

/-- Modelled from the spec: one FEN rank, digits standing for runs of empty
squares. -/
def expandFenRank : List Char → Option (List (Option Piece))
  | [] => some []
  | c :: rest =>
    if '1' ≤ c ∧ c ≤ '8' then
      (expandFenRank rest).map (fun l => List.replicate (c.toNat - 48) none ++ l)
    else
      match pieceOfFenChar c with
      | some pc => (expandFenRank rest).map (fun l => some pc :: l)
      | none => none

def parseFenRank (cs : List Char) : Option (List (Option Piece)) := do
  let row ← expandFenRank cs
  if row.length = 8 then some row else none

/-- Modelled from the spec: FEN parsing as performed by the external
chess.js collaborator (`new Chess(fen)` / `chess.load(fen)`), which the
repository never implements itself.  Yields the 8x8 grid (row 0 = rank 8)
and the side to move, or `none` for a malformed FEN. -/
def fenToBoard (f : String) : Option (Board × PColor) := do
  match splitOnChar ' ' f.toList with
  | boardPart :: turnPart :: _ =>
    let rankStrs := splitOnChar '/' boardPart
    if rankStrs.length = 8 then
      let rows ← rankStrs.mapM parseFenRank
      let turn ← if turnPart = ['w'] then some PColor.white
        else if turnPart = ['b'] then some PColor.black else none
      some (rows, turn)
    else none
  | _ => none

/-- Embeds the component's `parseFen`: an all-empty 8x8 grid is built first,
and if the engine rejects the FEN the error is logged and that empty grid is
returned unchanged. -/
def parseFen (f : String) : Board :=
  match fenToBoard f with
  | some (b, _) => b
  | none => List.replicate 8 (List.replicate 8 none)

def standardStartFEN : String :=
  "rnbqkbnr/pppppppp/8/8/8/8/PPPPPPPP/RNBQKBNR w KQkq - 0 1"

/-- The board the component falls back to (`chess.reset()` then re-parse). -/
def standardBoard : Board := parseFen standardStartFEN

/-- chess.js piece record (`{ type: 'p'.., color: 'w' | 'b' }`). -/
structure EnginePiece where
  etype : Char
  ecolor : Char
deriving DecidableEq, Repr

/-- chess.js verbose move record (the fields the component reads). -/
structure EngineMove where
  fromSq : String
  toSq : String
  flags : String
deriving DecidableEq, Repr

inductive MoveInput where
  | drag
  | click
  | both
deriving DecidableEq, Repr

structure Arrow where
  startSquare : String
  endSquare : String
  color : Option String
deriving DecidableEq, Repr

/-- Component props plus the rules-engine oracles captured by the handlers'
closures.  `engineMoves` returning `none` models `chess.moves` throwing. -/
structure Props where
  readOnly : Bool
  hasOnMove : Bool
  hasOnArrowsChange : Bool
  hasOnPromotionSelect : Bool
  eraseArrowsOnClick : Bool
  arrows : List Arrow
  moveInputMode : MoveInput
  externalSelectedSquare : Option (Option String)
  legalMovesProp : List String
  showDestinations : Bool
  rookCastle : Bool
  currentPlayerColor : Option PColor
  enablePremove : Bool
  snapToValidMoves : Bool
  animationDuration : Nat
  engineGet : String → Option EnginePiece
  engineMoves : String → Option (List EngineMove)

/-- The component's `useState` fields that the modelled handlers touch,
plus the chess.js instance's loaded position (fen and side to move). -/
structure CState where
  boardState : Board
  previousBoardState : Board
  internalSelectedSquare : Option String
  draggedPiece : Option (String × Piece)
  dragOverSquare : Option String
  premoves : List (String × String)
  arrowStart : Option String
  isDrawingArrow : Bool
  rightClickedSquares : List String
  pendingPromotion : Option (String × String)
  showPromotionDialog : Bool
  animatingPieces : List (String × AnimEntry)
  capturedPieces : List (String × CapEntry)
  chessFen : String
  chessTurn : PColor
deriving Repr

/-- An `onMove(from, to, promotion?)` invocation. -/
abbrev HostCall := String × String × Option Char

/-- `selectedSquare`: the external prop overrides the internal state when it
is supplied (JS `undefined` = outer `none`). -/
def selectedSquare (props : Props) (s : CState) : Option String :=
  match props.externalSelectedSquare with
  | some v => v
  | none => s.internalSelectedSquare

def isClickEnabled (props : Props) : Bool :=
  match props.moveInputMode with
  | .drag => false
  | .click => true
  | .both => true

def isDragEnabled (props : Props) : Bool :=
  match props.moveInputMode with
  | .drag => true
  | .click => false
  | .both => true

/-- `isPlayerTurn`: true when no player color is configured (and on engine
failure), otherwise compares with the loaded position's side to move. -/
def isPlayerTurn (props : Props) (s : CState) : Bool :=
  match props.currentPlayerColor with
  | none => true
  | some c => decide (s.chessTurn = c)

/-- `calculatedLegalMoves`: engine query for the selected square, suppressed
by read-only or hidden destinations; an engine throw yields `[]`. -/
def calculatedLegalMoves (props : Props) (s : CState) : List String :=
  match selectedSquare props s with
  | none => []
  | some sel =>
    if props.readOnly || !props.showDestinations then []
    else
      match props.engineMoves sel with
      | some ms => ms.map (fun m => m.toSq)
      | none => []

/-- `effectiveLegalMoves`: the prop list when non-empty, else the computed
list; `[]` outright when destinations are hidden. -/
def effectiveLegalMoves (props : Props) (s : CState) : List String :=
  if props.showDestinations then
    if props.legalMovesProp.length > 0 then props.legalMovesProp
    else calculatedLegalMoves props s
  else []

/-- `square.charCodeAt(0)`. -/
def charCode0 (sq : String) : Nat := (sq.toList.getD 0 '?').toNat

/-- `square[1]`. -/
def charAt1 (sq : String) : Char := sq.toList.getD 1 '?'

/-- The king lookup inside the rook-castling branch: scan files 0..7 of the
player's back rank for the engine's king of that color. -/
def findKingSquare (props : Props) (color : PColor) : Option String :=
  let kingRank := if color = PColor.white then 7 else 0
  ((List.range 8).find? (fun f =>
    match props.engineGet (rankFileToSquare kingRank f) with
    | some ep =>
      ep.etype == 'k' && ep.ecolor == (if color = PColor.white then 'w' else 'b')
    | none => false)).map (fun f => rankFileToSquare kingRank f)

/-- The rook-castling attempt inside `handleSquareClick`'s selection branch:
`some (kingSquare, castlingTarget)` exactly when the source emits the
castling move directly.  An engine throw (`none` from `engineMoves`) falls
through to normal selection, as the source's catch does. -/
def rookCastleAttempt (props : Props) (piece : Piece) (file : Nat) :
    Option (String × String) :=
  if props.rookCastle && decide (piece.type = PType.r) then
    if props.currentPlayerColor = none ∨ props.currentPlayerColor = some piece.color then
      match findKingSquare props piece.color with
      | some kingSquare =>
        match props.engineMoves kingSquare with
        | some moves =>
          match moves.find? (fun m => m.flags.contains 'k' || m.flags.contains 'q') with
          | some _ =>
            let kingFile := charCode0 kingSquare - 97
            let isKingside : Bool := decide (file > kingFile)
            match moves.find? (fun m =>
              let mKingSide : Bool := decide (charCode0 m.toSq > charCode0 m.fromSq)
              (isKingside && mKingSide && m.flags.contains 'k') ||
              (!isKingside && !mKingSide && m.flags.contains 'q')) with
            | some cm => some (kingSquare, cm.toSq)
            | none => none
          | none => none
        | none => none
      | none => none
    else none
  else none

/-- Embeds `handleSquareClick`.  The sound-classification block (capture,
promotion, castle and check probing on a disposable engine copy) only plays
audio; it never gates the `onMove` call, so it is omitted here. -/
def handleSquareClick (props : Props) (s : CState) (rank file : Nat) :
    CState × List HostCall :=
  if props.readOnly || !props.hasOnMove then (s, [])
  else
    let eraseHit :=
      if props.eraseArrowsOnClick && decide (props.arrows.length > 0) &&
          props.hasOnArrowsChange then
        props.arrows.find? (fun a =>
          a.startSquare == rankFileToSquare rank file ||
          a.endSquare == rankFileToSquare rank file)
      else none
    match eraseHit with
    | some _ => (s, [])
      -- emits onArrowsChange with the clicked arrow removed; no move call
    | none =>
      if !(isClickEnabled props) then (s, [])
      else
        let square := rankFileToSquare rank file
        match selectedSquare props s with
        | some sel =>
          let calls :=
            if sel ≠ square ∧ (effectiveLegalMoves props s = [] ∨
                square ∈ effectiveLegalMoves props s) then
              [(sel, square, (none : Option Char))]
            else []
          let s' := if props.externalSelectedSquare = none then
              { s with internalSelectedSquare := none } else s
          (s', calls)
        | none =>
          match getSq s.boardState rank file with
          | none => (s, [])
          | some piece =>
            match rookCastleAttempt props piece file with
            | some kt =>
              let s' := if props.externalSelectedSquare = none then
                  { s with internalSelectedSquare := none } else s
              (s', [(kt.1, kt.2, (none : Option Char))])
            | none =>
              let s' := if props.externalSelectedSquare = none then
                  { s with internalSelectedSquare := some square } else s
              (s', [])

/-- The drop cleanup shared by every exit path (`setDraggedPiece(null)`,
`setDragOverSquare(null)`). -/
def dropCleanup (s : CState) : CState :=
  { s with draggedPiece := none, dragOverSquare := none }

/-- The trailing cleanup of `handleDrop`, which additionally clears the
internal selection when no external selection prop is supplied. -/
def dropFinal (props : Props) (s : CState) : CState :=
  let s1 := dropCleanup s
  if props.externalSelectedSquare = none then
    { s1 with internalSelectedSquare := none }
  else s1

/-- The promotion test in `handleDrop`: the engine's source piece is a pawn
reaching the last rank for its color (`chess.get` with optional chaining, so
a missing piece is simply not a promotion). -/
def dropIsPromotion (props : Props) (dragSquare targetSquare : String) : Bool :=
  match props.engineGet dragSquare with
  | some sp =>
    sp.etype == 'p' &&
      ((sp.ecolor == 'w' && charAt1 targetSquare == '8') ||
       (sp.ecolor == 'b' && charAt1 targetSquare == '1'))
  | none => false

/-- Embeds `handleDrop`.  The target-piece lookup and the check probe feed
only the sound selection and are omitted; `engineMoves` returning `none`
models `chess.moves` throwing, whose catch logs and reaches the trailing
cleanup without emitting a move. -/
def handleDrop (props : Props) (s : CState) (rank file : Nat) :
    CState × List HostCall :=
  match s.draggedPiece with
  | none => (s, [])
  | some dragged =>
    let targetSquare := rankFileToSquare rank file
    let isPromotion := dropIsPromotion props dragged.1 targetSquare
    match props.engineMoves dragged.1 with
    | none => (dropFinal props s, [])
    | some moves =>
      let isValid := moves.any (fun m => m.toSq == targetSquare)
      if !isValid && !props.enablePremove then (dropCleanup s, [])
      else if isPromotion && props.hasOnPromotionSelect then
        ({ dropCleanup s with
            pendingPromotion := some (dragged.1, targetSquare),
            showPromotionDialog := true }, [])
      else if isValid || props.enablePremove then
        let promotionPiece : Option Char := if isPromotion then some 'q' else none
        if props.hasOnMove then
          if props.enablePremove && !(isPlayerTurn props s) then
            (dropFinal props
              { s with premoves := s.premoves ++ [(dragged.1, targetSquare)] }, [])
          else (dropFinal props s, [(dragged.1, targetSquare, promotionPiece)])
        else (dropFinal props s, [])
      else (dropFinal props s, [])

/-- Embeds `handleDragStart`: rejects read-only boards, empty squares, and
opponent pieces unless a premove may be recorded. -/
def handleDragStart (props : Props) (s : CState) (rank file : Nat) :
    CState × List HostCall :=
  if props.readOnly then (s, [])
  else
    match getSq s.boardState rank file with
    | none => (s, [])
    | some piece =>
      let blockedByTurn :=
        match props.currentPlayerColor with
        | some c =>
          if piece.color ≠ c then !props.enablePremove || isPlayerTurn props s
          else false
        | none => false
      if blockedByTurn then (s, [])
      else
        let square := rankFileToSquare rank file
        let s1 := { s with draggedPiece := some (square, piece) }
        (if props.externalSelectedSquare = none then
           { s1 with internalSelectedSquare := some square }
         else s1, [])

/-- Embeds `handleDragEnd` (the ghost-piece position is render-only state
and not tracked). -/
def handleDragEnd (s : CState) : CState × List HostCall :=
  ({ s with draggedPiece := none, dragOverSquare := none }, [])

/-- Embeds `handleContextMenu`: cancel queued premoves first, otherwise
start or complete an arrow (when the arrows callback exists) or toggle the
square highlight.  Completing an arrow emits the arrows callback, never an
`onMove`; the snapped end square only feeds that callback and the
highlight record is modelled as the list of highlighted squares. -/
def handleContextMenu (props : Props) (s : CState) (rank file : Nat) :
    CState × List HostCall :=
  if props.readOnly then (s, [])
  else
    let square := rankFileToSquare rank file
    if decide (s.premoves.length > 0) then ({ s with premoves := [] }, [])
    else if props.hasOnArrowsChange then
      match s.arrowStart with
      | none =>
        ({ s with
            arrowStart := some square, isDrawingArrow := true,
            dragOverSquare := some square }, [])
      | some _ =>
        ({ s with
            arrowStart := none, isDrawingArrow := false,
            dragOverSquare := none }, [])
    else
      if square ∈ s.rightClickedSquares then
        ({ s with rightClickedSquares := s.rightClickedSquares.erase square }, [])
      else
        ({ s with rightClickedSquares := s.rightClickedSquares ++ [square] }, [])

/-- Embeds the FEN-update effect (the `useEffect` on `fen`): load the FEN
into the engine, detect animations when enabled and the position changed,
and on a load failure (or a missing FEN) log, reset to the standard start
and re-parse — the failure is caught locally and never rethrown to the
host, and no callback fires. -/
def fenEffect (props : Props) (s : CState) (fen : Option String) :
    CState × List HostCall :=
  match fen with
  | some f =>
    match fenToBoard f with
    | some (_, turn) =>
      let previousFen := s.chessFen
      let newBoardState := parseFen f
      let s1 :=
        if decide (s.previousBoardState.length > 0) &&
            decide (props.animationDuration > 0) && decide (previousFen ≠ f) then
          let diff := detectAndAnimateMoves s.previousBoardState newBoardState
          { s with animatingPieces := diff.1, capturedPieces := diff.2 }
        else s
      ({ s1 with
          chessFen := f, chessTurn := turn,
          previousBoardState :=
            if decide (s.boardState.length > 0) then s.boardState
            else newBoardState,
          boardState := newBoardState }, [])
    | none =>
      let newBoardState := parseFen standardStartFEN
      ({ s with
          chessFen := standardStartFEN, chessTurn := PColor.white,
          previousBoardState :=
            if decide (s.boardState.length > 0) then s.boardState
            else newBoardState,
          boardState := newBoardState }, [])
  | none =>
    let newBoardState := parseFen standardStartFEN
    ({ s with
        chessFen := standardStartFEN, chessTurn := PColor.white,
        previousBoardState :=
          if decide (s.boardState.length > 0) then s.boardState
          else newBoardState,
        boardState := newBoardState }, [])

/-- The input events of the modelled state machine. -/
inductive BoardEvent where
  | fenUpdate (fen : Option String)
  | squareClick (rank file : Nat)
  | dragStart (rank file : Nat)
  | dragEnd
  | drop (rank file : Nat)
  | contextMenu (rank file : Nat)

/-- Event dispatcher over the modelled handlers. -/
def stepEvent (props : Props) (s : CState) : BoardEvent → CState × List HostCall
  | .fenUpdate f => fenEffect props s f
  | .squareClick r f => handleSquareClick props s r f
  | .dragStart r f => handleDragStart props s r f
  | .dragEnd => handleDragEnd s
  | .drop r f => handleDrop props s r f
  | .contextMenu r f => handleContextMenu props s r f

theorem fenEffect_calls (props : Props) (s : CState) (f : Option String) :
    (fenEffect props s f).2 = [] := by
  cases f with
  | none => rfl
  | some f' =>
    cases hfb : fenToBoard f' with
    | none => simp [fenEffect, hfb]
    | some bt =>
      obtain ⟨b, t⟩ := bt
      simp [fenEffect, hfb]

theorem handleContextMenu_calls (props : Props) (s : CState) (rank file : Nat) :
    (handleContextMenu props s rank file).2 = [] := by
  unfold handleContextMenu
  by_cases hro : props.readOnly = true
  · simp [hro]
  · simp only [Bool.not_eq_true] at hro
    simp only [hro, Bool.false_eq_true, if_false]
    by_cases hp : decide (s.premoves.length > 0) = true
    · simp [hp]
    · simp only [Bool.not_eq_true] at hp
      simp only [hp, Bool.false_eq_true, if_false]
      by_cases hac : props.hasOnArrowsChange = true
      · simp only [hac, if_true]
        cases s.arrowStart <;> rfl
      · simp only [Bool.not_eq_true] at hac
        simp only [hac, Bool.false_eq_true, if_false]
        by_cases hm : rankFileToSquare rank file ∈ s.rightClickedSquares
        · simp [hm]
        · simp [hm]

/-- Standard-board well-formedness, evaluated once. -/
theorem standardBoard_wf :
    standardBoard.length = 8 ∧ ∀ row ∈ standardBoard, row.length = 8 := by
  decide

/-- C8: when the incoming FEN does not parse, the FEN-update effect falls
back to the standard starting position, yielding a well-formed 8x8 board,
and emits no call to the host: the failure is absorbed locally. -/
theorem claim_C8 (props : Props) (s : CState) (f : String)
    (hf : fenToBoard f = none) :
    (fenEffect props s (some f)).1.boardState = standardBoard ∧
    (fenEffect props s (some f)).2 = [] ∧
    (fenEffect props s (some f)).1.boardState.length = 8 ∧
    ∀ row ∈ (fenEffect props s (some f)).1.boardState, row.length = 8 := by
  have hb : (fenEffect props s (some f)).1.boardState = standardBoard := by
    simp [fenEffect, hf, standardBoard]
  refine ⟨hb, fenEffect_calls props s (some f), ?_, ?_⟩
  · rw [hb]; exact standardBoard_wf.1
  · rw [hb]; exact standardBoard_wf.2

def defaultProps : Props where
  readOnly := false
  hasOnMove := true
  hasOnArrowsChange := false
  hasOnPromotionSelect := false
  eraseArrowsOnClick := false
  arrows := []
  moveInputMode := .both
  externalSelectedSquare := none
  legalMovesProp := []
  showDestinations := true
  rookCastle := true
  currentPlayerColor := none
  enablePremove := false
  snapToValidMoves := true
  animationDuration := 200
  engineGet := fun _ => none
  engineMoves := fun _ => none

def initState : CState where
  boardState := standardBoard
  previousBoardState := standardBoard
  internalSelectedSquare := none
  draggedPiece := none
  dragOverSquare := none
  premoves := []
  arrowStart := none
  isDrawingArrow := false
  rightClickedSquares := []
  pendingPromotion := none
  showPromotionDialog := false
  animatingPieces := []
  capturedPieces := []
  chessFen := standardStartFEN
  chessTurn := .white

theorem claim_C8_witness :
    (fenEffect defaultProps initState (some "not a fen")).1.boardState =
      standardBoard ∧
    (fenEffect defaultProps initState (some "not a fen")).2 = [] ∧
    (fenEffect defaultProps initState (some "not a fen")).1.boardState.length = 8 ∧
    ∀ row ∈ (fenEffect defaultProps initState (some "not a fen")).1.boardState,
      row.length = 8 :=
  claim_C8 defaultProps initState "not a fen" (by decide)

/-- C6: in the click path with a selected square and a different clicked
destination, a non-empty effective legal-move set that omits the
destination suppresses the move callback, while an empty effective set lets
the move through. -/
theorem claim_C6 (props : Props) (s : CState) (rank file : Nat) (sel : String)
    (hro : props.readOnly = false)
    (hom : props.hasOnMove = true)
    (hce : isClickEnabled props = true)
    (her : props.eraseArrowsOnClick = false)
    (hsel : selectedSquare props s = some sel)
    (hne : sel ≠ rankFileToSquare rank file) :
    ((effectiveLegalMoves props s ≠ [] ∧
        rankFileToSquare rank file ∉ effectiveLegalMoves props s) →
      (handleSquareClick props s rank file).2 = []) ∧
    (effectiveLegalMoves props s = [] →
      (handleSquareClick props s rank file).2 =
        [(sel, rankFileToSquare rank file, none)]) := by
  have hred : handleSquareClick props s rank file =
      ((if props.externalSelectedSquare = none then
          { s with internalSelectedSquare := none } else s),
        if sel ≠ rankFileToSquare rank file ∧
            (effectiveLegalMoves props s = [] ∨
              rankFileToSquare rank file ∈ effectiveLegalMoves props s) then
          [(sel, rankFileToSquare rank file, (none : Option Char))]
        else []) := by
    unfold handleSquareClick
    rw [hro, hom, her, hce]
    simp [hsel]
  constructor
  · rintro ⟨hnn, hnm⟩
    have hc : ¬(sel ≠ rankFileToSquare rank file ∧
        (effectiveLegalMoves props s = [] ∨
          rankFileToSquare rank file ∈ effectiveLegalMoves props s)) := by
      rintro ⟨-, h2 | h2⟩
      · exact hnn h2
      · exact hnm h2
    simp only [hred, if_neg hc]
  · intro hemp
    simp only [hred, if_pos (And.intro hne (Or.inl hemp))]

def c6Props : Props := { defaultProps with legalMovesProp := ["e4"] }

def c6State : CState := { initState with internalSelectedSquare := some "e2" }

theorem claim_C6_witness :
    (handleSquareClick c6Props c6State 4 3).2 = [] :=
  (claim_C6 c6Props c6State 4 3 "e2" rfl rfl rfl rfl rfl (by decide)).1
    (by decide)

/-- C10: with premoves enabled and on the player's own turn, dropping on a
square outside the engine's legal destinations still invokes the move
callback with the dragged (from, to) pair; the legality check blocks the
drop only when premove support is disabled (then nothing is emitted and no
premove is queued). -/
theorem claim_C10 :
    (∀ (props : Props) (s : CState) (rank file : Nat) (dragSq : String)
        (dragPc : Piece) (moves : List EngineMove),
      props.enablePremove = true → isPlayerTurn props s = true →
      props.hasOnMove = true →
      s.draggedPiece = some (dragSq, dragPc) →
      props.engineMoves dragSq = some moves →
      (∀ m ∈ moves, m.toSq ≠ rankFileToSquare rank file) →
      ¬(dropIsPromotion props dragSq (rankFileToSquare rank file) = true ∧
        props.hasOnPromotionSelect = true) →
      ∃ pr, (handleDrop props s rank file).2 =
        [(dragSq, rankFileToSquare rank file, pr)]) ∧
    (∀ (props : Props) (s : CState) (rank file : Nat) (dragSq : String)
        (dragPc : Piece) (moves : List EngineMove),
      props.enablePremove = false →
      s.draggedPiece = some (dragSq, dragPc) →
      props.engineMoves dragSq = some moves →
      (∀ m ∈ moves, m.toSq ≠ rankFileToSquare rank file) →
      (handleDrop props s rank file).2 = [] ∧
      (handleDrop props s rank file).1.premoves = s.premoves) := by
  constructor
  · intro props s rank file dragSq dragPc moves hpre hturn hom hdrag hmoves
      hnl hnp
    have hvalid : moves.any (fun m => m.toSq == rankFileToSquare rank file) =
        false := by
      rw [List.any_eq_false]
      intro m hm
      simpa using hnl m hm
    refine ⟨if dropIsPromotion props dragSq (rankFileToSquare rank file) then
        some 'q' else none, ?_⟩
    unfold handleDrop
    rw [hdrag]
    simp only [hmoves, hvalid, hpre, hturn, hom]
    by_cases hpro : dropIsPromotion props dragSq (rankFileToSquare rank file) =
        true
    · have hps : props.hasOnPromotionSelect = false := by
        cases hps : props.hasOnPromotionSelect
        · rfl
        · exact absurd ⟨hpro, hps⟩ hnp
      simp [hpro, hps]
    · simp only [Bool.not_eq_true] at hpro
      simp [hpro]
  · intro props s rank file dragSq dragPc moves hpre hdrag hmoves hnl
    have hvalid : moves.any (fun m => m.toSq == rankFileToSquare rank file) =
        false := by
      rw [List.any_eq_false]
      intro m hm
      simpa using hnl m hm
    unfold handleDrop
    rw [hdrag]
    simp [hmoves, hvalid, hpre, dropCleanup]

def c10Props : Props :=
  { defaultProps with enablePremove := true, engineMoves := fun _ => some [] }

def c10State : CState :=
  { initState with draggedPiece := some ("e2", ⟨.p, .white⟩) }

theorem claim_C10_witness :
    ∃ pr, (handleDrop c10Props c10State 4 4).2 =
      [("e2", rankFileToSquare 4 4, pr)] :=
  claim_C10.1 c10Props c10State 4 4 "e2" ⟨.p, .white⟩ [] rfl rfl rfl rfl rfl
    (by simp) (by decide)

def c3Props : Props := { defaultProps with enablePremove := true, animationDuration := 0 }

def c3State : CState := { initState with premoves := [("e2", "e4")] }

def fenAfterE4 : String :=
  "rnbqkbnr/pppppppp/8/8/4P3/8/PPPPPPPP/RNBQKBNR b KQkq - 0 1"

/-- C3 counterexample: with premove support enabled and one premove queued,
a valid new FEN arrives whose side to move has flipped (a turn change), yet
the FEN-update effect leaves the premove queue untouched instead of
discarding it — the queue is only cleared by a later right-click. -/
theorem claim_C3_counterexample :
    (fenToBoard fenAfterE4).isSome = true ∧
    c3State.chessTurn = PColor.white ∧
    (stepEvent c3Props c3State (.fenUpdate (some fenAfterE4))).1.chessTurn =
      PColor.black ∧
    (stepEvent c3Props c3State (.fenUpdate (some fenAfterE4))).1.premoves =
      [("e2", "e4")] := by
  refine ⟨by decide, rfl, by decide, by decide⟩

theorem selectedSquare_set_premoves (props : Props) (s : CState)
    (q : List (String × String)) :
    selectedSquare props { s with premoves := q } = selectedSquare props s := rfl

theorem effectiveLegalMoves_set_premoves (props : Props) (s : CState)
    (q : List (String × String)) :
    effectiveLegalMoves props { s with premoves := q } =
      effectiveLegalMoves props s := rfl

theorem isPlayerTurn_set_premoves (props : Props) (s : CState)
    (q : List (String × String)) :
    isPlayerTurn props { s with premoves := q } = isPlayerTurn props s := rfl

theorem fenEffect_premoves (props : Props) (s : CState) (f : Option String) :
    (fenEffect props s f).1.premoves = s.premoves := by
  cases f with
  | none => rfl
  | some f' =>
    cases hfb : fenToBoard f' with
    | none => simp [fenEffect, hfb]
    | some bt =>
      obtain ⟨b, t⟩ := bt
      simp only [fenEffect, hfb]
      split <;> rfl

/-- C3 (amended): queued premoves are never auto-executed — the FEN-update
effect (a turn change included) leaves the premove queue untouched and
emits nothing; the queue is discarded only by a right-click while premoves
are queued; and the calls any event emits are independent of the premove
queue, so no queued premove is ever forwarded to the host's move
callback. -/
theorem claim_C3_amended :
    (∀ (props : Props) (s : CState) (f : Option String),
      (stepEvent props s (.fenUpdate f)).1.premoves = s.premoves ∧
      (stepEvent props s (.fenUpdate f)).2 = []) ∧
    (∀ (props : Props) (s : CState) (rank file : Nat),
      props.readOnly = false → s.premoves ≠ [] →
      (stepEvent props s (.contextMenu rank file)).1.premoves = [] ∧
      (stepEvent props s (.contextMenu rank file)).2 = []) ∧
    (∀ (props : Props) (s : CState) (e : BoardEvent),
      (stepEvent props s e).2 =
        (stepEvent props { s with premoves := [] } e).2) := by
  refine ⟨?_, ?_, ?_⟩
  · intro props s f
    exact ⟨fenEffect_premoves props s f, fenEffect_calls props s f⟩
  · intro props s rank file hro hne
    have hlen : s.premoves.length > 0 := List.length_pos.mpr hne
    constructor <;> simp [stepEvent, handleContextMenu, hro, hlen]
  · intro props s e
    cases e with
    | fenUpdate f =>
      show (fenEffect props s f).2 = (fenEffect props _ f).2
      rw [fenEffect_calls, fenEffect_calls]
    | contextMenu r f =>
      show (handleContextMenu props s r f).2 = (handleContextMenu props _ r f).2
      rw [handleContextMenu_calls, handleContextMenu_calls]
    | squareClick r f =>
      show (handleSquareClick props s r f).2 = _
      simp only [stepEvent, handleSquareClick, selectedSquare_set_premoves,
        effectiveLegalMoves_set_premoves]
      repeat' split
      all_goals rfl
    | dragStart r f =>
      show (handleDragStart props s r f).2 = _
      simp only [stepEvent, handleDragStart, isPlayerTurn_set_premoves]
      repeat' split
      all_goals rfl
    | dragEnd => rfl
    | drop r f =>
      show (handleDrop props s r f).2 = _
      simp only [stepEvent, handleDrop, isPlayerTurn_set_premoves]
      repeat' split
      all_goals rfl

theorem claim_C3_amended_witness :
    (stepEvent c3Props c3State (.fenUpdate (some fenAfterE4))).1.premoves =
      c3State.premoves ∧
    (stepEvent c3Props c3State (.contextMenu 0 0)).1.premoves = [] :=
  ⟨(claim_C3_amended.1 c3Props c3State (some fenAfterE4)).1,
   (claim_C3_amended.2.1 c3Props c3State 0 0 rfl (by decide)).1⟩
